import Mathlib

/-!
Verification development for the `cargo-gc` repository.

The definitions below are a shallow embedding of the garbage-collection
engine in `src/main.rs`, `src/beatrice.rs` and `src/utils.rs`:

* filesystem directory listings become explicit lists of entry records
  (name / stem / extension / file-type / mtime / size attributes as the
  source reads them from `fs::DirEntry`);
* `HashSet` insertion becomes `insertOnce` on lists (membership-test
  semantics identical, deterministic order);
* `HashMap` becomes an association list with `alookup` / `aupdate`;
* fallible Rust code (`Result` + `?`) becomes `Except String`;
* `SystemTime` becomes `Nat`; byte sizes (`u64`) become `Nat`
  (the only subtraction performed, `success_size -= size`, follows an
  addition of the same `size`, so `Nat` subtraction is exact here);
* `Path::canonicalize` is modelled as the identity on path strings
  (its failure aborts the source functions wholesale and no claim
  concerns a canonicalization failure).
-/

/-- Insert into a `HashSet`-modelled list: no-op when already present. -/
def insertOnce {α : Type} [DecidableEq α] (a : α) (l : List α) : List α :=
  if a ∈ l then l else l ++ [a]

/-- Association-list lookup, modelling `HashMap::get`. -/
def alookup {α : Type} (k : String) : List (String × α) → Option α
  | [] => none
  | p :: rest => if p.1 = k then some p.2 else alookup k rest

/-- Association-list in-place update, modelling mutation through
`Entry::Occupied(e).get_mut()`. -/
def aupdate {α : Type} (k : String) (v : α) : List (String × α) → List (String × α)
  | [] => []
  | p :: rest => if p.1 = k then (k, v) :: rest else p :: aupdate k v rest

/-- Split a character list at the LAST occurrence of `sep`, returning the
parts before and after it; `none` when `sep` does not occur.  This is the
list-level semantics of Rust's `str::rsplit_once`. -/
def rsplitOnceList (sep : Char) : List Char → Option (List Char × List Char)
  | [] => none
  | c :: cs =>
    match rsplitOnceList sep cs with
    | some (l, r) => some (c :: l, r)
    | none => if c = sep then some ([], cs) else none

/-- `str::rsplit_once` lifted to `String`. -/
def rsplitOnceStr (sep : Char) (s : String) : Option (String × String) :=
  (rsplitOnceList sep s.data).map (fun p => (String.mk p.1, String.mk p.2))

/-- `extract_fingerprint` (src/main.rs:63-67): `file_stem.rsplit_once('-')`,
mapping both halves to owned strings. -/
def extract_fingerprint (file_stem : String) : Option (String × String) :=
  rsplitOnceStr '-' file_stem

/-- `normalize_package_name` (src/utils.rs:3-5): replace every `-` by `_`. -/
def normalize_package_name (name : String) : String :=
  String.mk (name.data.map (fun c => if c = '-' then '_' else c))

/-- `profile_to_dir` (src/utils.rs:9-11). -/
def profile_to_dir (profile : String) : String :=
  if profile = "dev" then "debug" else profile

/-- `PathBuf::from(p).file_stem().unwrap_or_default()` as used in
`OutputCollection::from_json` (src/main.rs:38-43): take the component after
the last `/`, then the part before the last `.` unless that part is empty
(leading-dot file names keep their full name).  Modelled for the forward
slash separated, non-trailing-slash file paths cargo emits; the `..`
component corner case of `Path::file_stem` is not distinguished (both sides
make `from_json` skip such an entry). -/
def fileStem (p : String) : String :=
  let nm : List Char :=
    match rsplitOnceList '/' p.data with
    | some pr => pr.2
    | none => p.data
  match rsplitOnceList '.' nm with
  | some pr => if pr.1 = [] then String.mk nm else String.mk pr.1
  | none => String.mk nm

/-- One line of the `cargo build --message-format=json` stream after serde
deserialization (`OutputItem`, src/main.rs:69-72): an optional `filenames`
array.  Malformed JSON lines abort `from_json` before the loop and are out
of scope here (the input is the already-deserialized record list). -/
structure OutputItem where
  filenames : Option (List String)
deriving DecidableEq

/-- Body of the per-filename loop of `OutputCollection::from_json`
(src/main.rs:37-50): take the file stem, skip when empty, insert the parsed
`(name, fingerprint)` pair unnormalized. -/
def liveAdd (acc : List (String × String)) (nm : String) : List (String × String) :=
  let stem := fileStem nm
  if stem = "" then acc
  else
    match extract_fingerprint stem with
    | some p => insertOnce p acc
    | none => acc

/-- The set built by `OutputCollection::from_json` before the emptiness
check (src/main.rs:35-51). -/
def liveSetOf (items : List OutputItem) : List (String × String) :=
  items.foldl (fun acc item => (item.filenames.getD []).foldl liveAdd acc) []

/-- `OutputCollection::from_json` (src/main.rs:29-60): error when no
identifier was extracted from any record. -/
def fromJson (items : List OutputItem) : Except String (List (String × String)) :=
  let s := liveSetOf items
  if s = [] then
    .error "no valid file is found, you can just run `cargo clean`"
  else
    .ok s

/-- One `fs::DirEntry` of the `deps` directory as consumed by the selection
loop in `main` (src/main.rs:181-216).  `stem` and `ext` are the
`file_stem()` / `extension().unwrap_or_default()` of the entry's path and
`path` its canonicalized absolute path; the per-entry I/O fallibility of
those accessors (fatal `?` in the source, no selection produced) is not part
of the modelled state space. -/
structure DepsEntry where
  isDir : Bool
  stem : String
  ext : String
  path : String
deriving DecidableEq

/-- The deps-tree selection loop of `main` (src/main.rs:181-216):
skip directories, skip stems without a `-`, and select the file iff its
parsed pair is absent from the live set and its extension is not `d`. -/
def depsSelectGo (live : List (String × String)) :
    List DepsEntry → List String → List String
  | [], acc => acc
  | e :: rest, acc =>
    if e.isDir then depsSelectGo live rest acc
    else
      match extract_fingerprint e.stem with
      | none => depsSelectGo live rest acc
      | some p =>
        if p ∉ live ∧ e.ext ≠ "d" then
          depsSelectGo live rest (insertOnce e.path acc)
        else
          depsSelectGo live rest acc

/-- `files_to_remove` as computed by `main` (src/main.rs:179-216). -/
def depsSelect (live : List (String × String)) (entries : List DepsEntry) :
    List String :=
  depsSelectGo live entries []

/-- One first-level `fs::DirEntry` of the `incremental` directory as read by
`incremental_files` (src/main.rs:112-132) and `Beatrice::load_incremental`
(src/beatrice.rs:198-218).  `isDir = none` models a failed `file_type()`
call (`unwrap_or_default()` makes it count as a non-directory); `name` is
the entry's file name and `mtime` its modification time.  A failing
`metadata()`/`modified()` call aborts the whole source function with an
error (nothing is selected), so it is not part of the modelled state
space. -/
structure IncEntry where
  isDir : Option Bool
  name : String
  mtime : Nat
deriving DecidableEq

/-- The reduction loop shared verbatim by `incremental_files`
(src/main.rs:112-150) and `Beatrice::load_incremental`
(src/beatrice.rs:198-237).  State: `latest` models `latest_one : HashMap`
(name to current hash and mtime) and `toRemove` models
`pathbuf_to_remove : HashSet`.

Note the supersede branch: the source executes `*prev_hash = hash;` BEFORE
formatting `{dep_name}-{prev_hash}` (src/main.rs:138-141), so the path it
inserts into the removal set is built from the NEWLY observed hash, not the
displaced one.  The embedding reproduces that behavior exactly: both
branches of the occupied case insert the current entry's own path. -/
def loadIncrementalGo (incPath : String) :
    List IncEntry → List (String × (String × Nat)) → List String → List String
  | [], _, toRemove => toRemove
  | e :: rest, latest, toRemove =>
    if (e.isDir.getD false) = false then
      loadIncrementalGo incPath rest latest toRemove
    else
      match extract_fingerprint e.name with
      | none => loadIncrementalGo incPath rest latest toRemove
      | some (depName, hash) =>
        match alookup depName latest with
        | some prev =>
          if e.mtime > prev.2 then
            loadIncrementalGo incPath rest
              (aupdate depName (hash, e.mtime) latest)
              (insertOnce (incPath ++ "/" ++ depName ++ "-" ++ hash) toRemove)
          else
            loadIncrementalGo incPath rest latest
              (insertOnce (incPath ++ "/" ++ depName ++ "-" ++ hash) toRemove)
        | none =>
          loadIncrementalGo incPath rest ((depName, (hash, e.mtime)) :: latest) toRemove

/-- `incremental_files` (src/main.rs:100-162) / `Beatrice::load_incremental`
(src/beatrice.rs:185-249) on the listing of an existing `incremental`
directory (a missing directory yields the empty listing and hence the empty
result, as in the source); the final canonicalization pass is modelled as
the identity. -/
def loadIncremental (incPath : String) (entries : List IncEntry) : List String :=
  loadIncrementalGo incPath entries [] []

/-- The filesystem facts consulted by the deletion phase of `main`
(src/main.rs:236-265): `fileSize` models `fs::metadata(path).map(len)`
(absent key = error, `unwrap_or_default()` = 0); `fileRemoveFails` the set
of paths on which `fs::remove_file` errors; `dirListing` models
`fs::read_dir(dir)` on a selected incremental directory (absent key = the
fatal listing error) with each child's `entry.ok()/metadata.ok()` size
(`none` = skipped child); `dirRemoveFails` the set of directories on which
`fs::remove_dir_all` errors. -/
structure World where
  fileSize : List (String × Nat)
  fileRemoveFails : List String
  dirListing : List (String × List (Option Nat))
  dirRemoveFails : List String
deriving DecidableEq

/-- The deps-file removal loop of `main` (src/main.rs:236-247): for each
selected path, stat its size best-effort, add it to the running total,
attempt removal, and on failure count it and subtract the size back out.
Returns (failure count, freed bytes, removed paths). -/
def execFilesGo (w : World) : List String → Nat → Nat → List String →
    Nat × Nat × List String
  | [], failed, size, removed => (failed, size, removed)
  | f :: rest, failed, size, removed =>
    let s := (alookup f w.fileSize).getD 0
    let size' := size + s
    if f ∈ w.fileRemoveFails then
      execFilesGo w rest (failed + 1) (size' - s) removed
    else
      execFilesGo w rest failed size' (removed ++ [f])

/-- The incremental-directory removal loop of `main` (src/main.rs:248-265):
listing the selected directory is fatal on failure (`?`), per-child stat
failures contribute 0 to the measured size, and a failed `remove_dir_all`
is counted and rolled back.  The failure counter and freed-bytes total
continue from the file loop's values. -/
def execDirsGo (w : World) : List String → Nat → Nat → List String →
    Except String (Nat × Nat × List String)
  | [], failed, size, removed => .ok (failed, size, removed)
  | d :: rest, failed, size, removed =>
    match alookup d w.dirListing with
    | none => .error ("failed to read incremental directory: " ++ d)
    | some children =>
      let s := (children.map (fun c => c.getD 0)).sum
      let size' := size + s
      if d ∈ w.dirRemoveFails then
        execDirsGo w rest (failed + 1) (size' - s) removed
      else
        execDirsGo w rest failed size' (removed ++ [d])

/-- Observable outcome of one complete run of `main` (src/main.rs:164-279):
the two selections, the paths actually deleted, the failure counter, the
freed-bytes total, and the file count printed by the final report
(`total_count - failed`, src/main.rs:272-274). -/
structure RunOutcome where
  depsSelected : List String
  incSelected : List String
  removedFiles : List String
  removedDirs : List String
  failed : Nat
  freed : Nat
  reportedRemoved : Nat
deriving DecidableEq

/-- The GC pipeline of `main` (src/main.rs:164-279) from the deserialized
build-plan records and the two directory listings: resolve the live set
(fatal when empty), select stale deps files, reduce incremental sessions,
stop after selection when `--dry-run` is set, otherwise execute the two
deletion loops against `w`. -/
def gcRun (items : List OutputItem) (deps : List DepsEntry)
    (inc : List IncEntry) (incPath : String) (w : World) (dryRun : Bool) :
    Except String RunOutcome := do
  let live ← fromJson items
  let depsSel := depsSelect live deps
  let incSel := loadIncremental incPath inc
  if dryRun then
    return ⟨depsSel, incSel, [], [], 0, 0, 0⟩
  let r1 := execFilesGo w depsSel 0 0 []
  let r2 ← execDirsGo w incSel r1.1 r1.2.1 []
  return ⟨depsSel, incSel, r1.2.2, r2.2.2, r2.1, r2.2.1, depsSel.length - r2.1⟩

/-- Paths deleted by a run; an aborted run deletes nothing it can report. -/
def removedPaths : Except String RunOutcome → List String
  | .ok o => o.removedFiles ++ o.removedDirs
  | .error _ => []

/-- `UnitFreshness` (src/beatrice.rs:25-29). -/
inductive UnitFreshness : Type
  | Fresh : UnitFreshness
  | Dirty : String → UnitFreshness
  | Unknown : UnitFreshness
deriving DecidableEq

/-- `ItemInfo` (src/beatrice.rs:14-17). -/
structure ItemInfo where
  last_modified : Nat
  size : Nat
deriving DecidableEq

/-- `FingerprintInfo` (src/beatrice.rs:20-22). -/
structure FingerprintInfo where
  freshness : UnitFreshness
deriving DecidableEq

/-- `Beatrice::fingerprint_library`: name to (hash to info), as an
association list. -/
def FingerprintLib : Type := List (String × List (String × FingerprintInfo))

/-- `Beatrice::deps_library`: name to (hash to item info). -/
def DepsLib : Type := List (String × List (String × ItemInfo))

/-- The ten counters accumulated by `Beatrice::report`
(src/beatrice.rs:297-369). -/
structure ReportCounts where
  fresh_count : Nat
  dirty_count : Nat
  unknown_count : Nat
  fresh_with_deps : Nat
  dirty_with_deps : Nat
  unknown_with_deps : Nat
  fresh_without_deps : Nat
  dirty_without_deps : Nat
  unknown_without_deps : Nat
  deps_without_fingerprints : Nat
  total_deps : Nat
deriving DecidableEq

/-- `deps_library.get(package_name).and_then(get(hash)).is_some()`
(src/beatrice.rs:315-319). -/
def depsHas (deps : DepsLib) (name hash : String) : Bool :=
  match alookup name deps with
  | some m => (alookup hash m).isSome
  | none => false

/-- `fingerprint_library.get(package_name).map(contains_key(hash))
.unwrap_or(false)` (src/beatrice.rs:360-364). -/
def fingerprintHas (fp : FingerprintLib) (name hash : String) : Bool :=
  match alookup name fp with
  | some m => (alookup hash m).isSome
  | none => false

/-- One iteration of the fingerprint-analysis loop of `Beatrice::report`
(src/beatrice.rs:310-354): bump the freshness category's count and exactly
one of its with-deps / without-deps splits. -/
def reportBump (deps : DepsLib) (name hash : String) (fi : FingerprintInfo)
    (c : ReportCounts) : ReportCounts :=
  match fi.freshness with
  | .Fresh =>
    if depsHas deps name hash then
      { c with fresh_count := c.fresh_count + 1,
               fresh_with_deps := c.fresh_with_deps + 1 }
    else
      { c with fresh_count := c.fresh_count + 1,
               fresh_without_deps := c.fresh_without_deps + 1 }
  | .Dirty _ =>
    if depsHas deps name hash then
      { c with dirty_count := c.dirty_count + 1,
               dirty_with_deps := c.dirty_with_deps + 1 }
    else
      { c with dirty_count := c.dirty_count + 1,
               dirty_without_deps := c.dirty_without_deps + 1 }
  | .Unknown =>
    if depsHas deps name hash then
      { c with unknown_count := c.unknown_count + 1,
               unknown_with_deps := c.unknown_with_deps + 1 }
    else
      { c with unknown_count := c.unknown_count + 1,
               unknown_without_deps := c.unknown_without_deps + 1 }

/-- The counters of `Beatrice::report` (src/beatrice.rs:297-369): the nested
fingerprint loop, then the deps-without-fingerprint count, then the total
deps count (`values().map(len).sum()`). -/
def reportCounts (fp : FingerprintLib) (deps : DepsLib) : ReportCounts :=
  let c0 : ReportCounts := ⟨0, 0, 0, 0, 0, 0, 0, 0, 0, 0, 0⟩
  let c1 := fp.foldl
    (fun c pkg => pkg.2.foldl (fun c hf => reportBump deps pkg.1 hf.1 hf.2 c) c)
    c0
  let dwf := deps.foldl
    (fun n pkg =>
      pkg.2.foldl (fun n hi => if fingerprintHas fp pkg.1 hi.1 then n else n + 1) n)
    0
  let total := deps.foldl (fun n pkg => n + pkg.2.length) 0
  { c1 with deps_without_fingerprints := dwf, total_deps := total }

/-- The total-fingerprints figure printed by `Beatrice::report`: the source
passes the expression `fresh_count + dirty_count + unknown_count` to the
format call (src/beatrice.rs:392). -/
def totalFingerprintsPrinted (fp : FingerprintLib) (deps : DepsLib) : Nat :=
  (reportCounts fp deps).fresh_count + (reportCounts fp deps).dirty_count +
    (reportCounts fp deps).unknown_count

/-- The string returned by `Beatrice::report` (src/beatrice.rs:371-395). -/
def beatriceReport (fp : FingerprintLib) (deps : DepsLib) : String :=
  let c := reportCounts fp deps
  "Beatrice Report:\n\nFingerprint Analysis:\n- Fresh: " ++
    toString c.fresh_count ++ " (with deps: " ++ toString c.fresh_with_deps ++
    ", without deps: " ++ toString c.fresh_without_deps ++ ")\n- Dirty: " ++
    toString c.dirty_count ++ " (with deps: " ++ toString c.dirty_with_deps ++
    ", without deps: " ++ toString c.dirty_without_deps ++ ")\n- Unknown: " ++
    toString c.unknown_count ++ " (with deps: " ++ toString c.unknown_with_deps ++
    ", without deps: " ++ toString c.unknown_without_deps ++
    ")\n- Total fingerprints: " ++
    toString (totalFingerprintsPrinted fp deps) ++
    "\n\nCorrespondence Analysis:\n- Deps items without fingerprints: " ++
    toString c.deps_without_fingerprints ++ "\n- Total deps items: " ++
    toString c.total_deps

lemma mem_insertOnce {α : Type} [DecidableEq α] (a b : α) (l : List α) :
    a ∈ insertOnce b l ↔ a = b ∨ a ∈ l := by
  by_cases hmem : b ∈ l
  · rw [insertOnce, if_pos hmem]
    constructor
    · exact Or.inr
    · rintro (rfl | h)
      · exact hmem
      · exact h
  · rw [insertOnce, if_neg hmem]
    simp [or_comm]

lemma rsplitOnceList_eq_none {sep : Char} :
    ∀ {l : List Char}, rsplitOnceList sep l = none → sep ∉ l := by
  intro l
  induction l with
  | nil => simp
  | cons c cs ih =>
    intro h
    simp only [rsplitOnceList] at h
    cases hrec : rsplitOnceList sep cs with
    | some p => rw [hrec] at h; exact absurd h (by simp)
    | none =>
      rw [hrec] at h
      by_cases hc : c = sep
      · simp [hc] at h
      · simp only [List.mem_cons, not_or]
        exact ⟨fun he => hc he.symm, ih hrec⟩

lemma rsplitOnceList_isSome {sep : Char} :
    ∀ {l : List Char}, sep ∈ l → (rsplitOnceList sep l).isSome := by
  intro l
  induction l with
  | nil => simp
  | cons c cs ih =>
    intro h
    simp only [rsplitOnceList]
    cases hrec : rsplitOnceList sep cs with
    | some p => simp
    | none =>
      have hcs : sep ∉ cs := rsplitOnceList_eq_none hrec
      have hc : c = sep := by
        rcases List.mem_cons.mp h with h1 | h2
        · exact h1.symm
        · exact absurd h2 hcs
      simp [hc]

lemma rsplitOnceList_sound {sep : Char} :
    ∀ {l a b : List Char}, rsplitOnceList sep l = some (a, b) →
      a ++ sep :: b = l ∧ sep ∉ b := by
  intro l
  induction l with
  | nil => intro a b h; exact absurd h (by simp [rsplitOnceList])
  | cons c cs ih =>
    intro a b h
    simp only [rsplitOnceList] at h
    cases hrec : rsplitOnceList sep cs with
    | some p =>
      obtain ⟨a', b'⟩ := p
      rw [hrec] at h
      simp only [Option.some.injEq, Prod.mk.injEq] at h
      obtain ⟨rfl, rfl⟩ := h
      obtain ⟨ih1, ih2⟩ := ih hrec
      refine ⟨?_, ih2⟩
      simpa using ih1
    | none =>
      rw [hrec] at h
      by_cases hc : c = sep
      · rw [if_pos hc] at h
        simp only [Option.some.injEq, Prod.mk.injEq] at h
        obtain ⟨rfl, rfl⟩ := h
        exact ⟨by simp [hc], rsplitOnceList_eq_none hrec⟩
      · simp [hc] at h

lemma string_mk_append (a b : List Char) :
    String.mk a ++ String.mk b = String.mk (a ++ b) := rfl

/-- C7: for every file stem containing at least one `-`,
`extract_fingerprint` returns `some (name, hash)` with
`name ++ "-" ++ hash` equal to the stem, split at the rightmost `-` (the
hash contains no `-`); for every stem without a `-` it returns `none`. -/
theorem spec_c7 (f : String) :
    ('-' ∈ f.data → ∃ n h, extract_fingerprint f = some (n, h) ∧
      n ++ "-" ++ h = f ∧ '-' ∉ h.data) ∧
    ('-' ∉ f.data → extract_fingerprint f = none) := by
  constructor
  · intro hmem
    have hs : (rsplitOnceList '-' f.data).isSome := rsplitOnceList_isSome hmem
    cases heq : rsplitOnceList '-' f.data with
    | none => rw [heq] at hs; simp at hs
    | some p =>
      obtain ⟨a, b⟩ := p
      obtain ⟨happ, hnb⟩ := rsplitOnceList_sound heq
      refine ⟨String.mk a, String.mk b, ?_, ?_, hnb⟩
      · simp [extract_fingerprint, rsplitOnceStr, heq]
      · have hdash : ("-" : String) = String.mk ['-'] := by decide
        rw [hdash, string_mk_append, string_mk_append]
        rw [show (a ++ ['-']) ++ b = a ++ '-' :: b by simp]
        rw [happ]
  · intro hmem
    cases heq : rsplitOnceList '-' f.data with
    | none => simp [extract_fingerprint, rsplitOnceStr, heq]
    | some p =>
      obtain ⟨a, b⟩ := p
      obtain ⟨happ, _⟩ := rsplitOnceList_sound heq
      exact absurd (happ ▸ (by simp : '-' ∈ a ++ '-' :: b)) hmem

/-- Witness for C7 at the spec's own example and at a separator-free stem. -/
theorem spec_c7_witness :
    (∃ n h, extract_fingerprint "git2-curl-abc123" = some (n, h) ∧
      n ++ "-" ++ h = "git2-curl-abc123" ∧ '-' ∉ h.data) ∧
    extract_fingerprint "xyz" = none :=
  ⟨(spec_c7 "git2-curl-abc123").1 (by decide),
   (spec_c7 "xyz").2 (by decide)⟩

lemma mem_depsSelectGo (live : List (String × String)) (q : String) :
    ∀ (entries : List DepsEntry) (acc : List String),
      q ∈ depsSelectGo live entries acc ↔
        q ∈ acc ∨ ∃ e ∈ entries, e.isDir = false ∧
          (∃ p, extract_fingerprint e.stem = some p ∧ p ∉ live ∧ e.ext ≠ "d") ∧
          q = e.path := by
  intro entries
  induction entries with
  | nil => intro acc; simp [depsSelectGo]
  | cons e rest ih =>
    intro acc
    simp only [depsSelectGo]
    split
    · next hdir =>
      rw [ih]
      simp [List.exists_mem_cons_iff, hdir]
    · next hdir' =>
      have hdir : e.isDir = false := by simpa using hdir'
      split
      · next hext =>
        rw [ih]
        simp [List.exists_mem_cons_iff, hdir, hext]
      · next p hext =>
        split
        · next hcond =>
          rw [ih, mem_insertOnce]
          simp only [List.exists_mem_cons_iff, hdir, hext, true_and,
            Option.some.injEq, exists_eq_left', hcond.1, hcond.2,
            not_false_iff, and_true]
          tauto
        · next hcond =>
          rw [ih]
          simp only [List.exists_mem_cons_iff, hdir, hext, true_and,
            Option.some.injEq, exists_eq_left']
          tauto

/-- C2: for a deps-directory listing with pairwise-distinct canonical
paths, an entry's path is selected for removal iff the entry is not a
directory, its extension is not `d`, and its stem parses to a pair absent
from the live set.  In particular `.d` files and directories are never
selected. -/
theorem spec_c2 (live : List (String × String)) (entries : List DepsEntry)
    (hnd : (entries.map DepsEntry.path).Nodup) (e : DepsEntry)
    (he : e ∈ entries) :
    e.path ∈ depsSelect live entries ↔
      e.isDir = false ∧ e.ext ≠ "d" ∧
        ∃ p, extract_fingerprint e.stem = some p ∧ p ∉ live := by
  rw [depsSelect, mem_depsSelectGo]
  simp only [List.not_mem_nil, false_or]
  constructor
  · rintro ⟨e', he', hdir, ⟨p, hext, hlive, hextd⟩, hpath⟩
    have heq : e' = e := List.inj_on_of_nodup_map hnd he' he hpath.symm
    subst heq
    exact ⟨hdir, hextd, p, hext, hlive⟩
  · rintro ⟨hdir, hextd, p, hext, hlive⟩
    exact ⟨e, he, hdir, ⟨p, hext, hlive, hextd⟩, rfl⟩

/-- Witness for C2 at the spec's own example: deps entries
`(a,1).rlib` and `(a,2).rlib` with live set `{(a,2)}`. -/
theorem spec_c2_witness :
    ("/deps/a-1.rlib" ∈ depsSelect [("a", "2")]
        [⟨false, "a-1", "rlib", "/deps/a-1.rlib"⟩,
         ⟨false, "a-2", "rlib", "/deps/a-2.rlib"⟩] ↔
      (false = false ∧ "rlib" ≠ "d" ∧
        ∃ p, extract_fingerprint "a-1" = some p ∧ p ∉ [("a", "2")])) :=
  spec_c2 [("a", "2")]
    [⟨false, "a-1", "rlib", "/deps/a-1.rlib"⟩,
     ⟨false, "a-2", "rlib", "/deps/a-2.rlib"⟩]
    (by decide) ⟨false, "a-1", "rlib", "/deps/a-1.rlib"⟩ (by decide)

lemma mem_liveAdd (acc : List (String × String)) (nm : String)
    (p : String × String) :
    p ∈ liveAdd acc nm ↔
      p ∈ acc ∨ (fileStem nm ≠ "" ∧ extract_fingerprint (fileStem nm) = some p) := by
  simp only [liveAdd]
  split
  · next hstem => simp [hstem]
  · next hstem =>
    split
    · next q hext =>
      rw [mem_insertOnce]
      simp [hstem, hext, eq_comm]
      tauto
    · next hext => simp [hstem, hext]

lemma mem_liveFoldNames (p : String × String) :
    ∀ (names : List String) (acc : List (String × String)),
      p ∈ names.foldl liveAdd acc ↔
        p ∈ acc ∨ ∃ nm ∈ names,
          fileStem nm ≠ "" ∧ extract_fingerprint (fileStem nm) = some p := by
  intro names
  induction names with
  | nil => simp
  | cons nm rest ih =>
    intro acc
    rw [List.foldl_cons, ih, mem_liveAdd]
    simp only [List.exists_mem_cons_iff]
    tauto

lemma mem_liveSetOf (items : List OutputItem) (p : String × String) :
    p ∈ liveSetOf items ↔
      ∃ item ∈ items, ∃ nm ∈ item.filenames.getD [],
        fileStem nm ≠ "" ∧ extract_fingerprint (fileStem nm) = some p := by
  suffices h : ∀ (its : List OutputItem) (acc : List (String × String)),
      p ∈ its.foldl (fun acc item => (item.filenames.getD []).foldl liveAdd acc) acc ↔
        p ∈ acc ∨ ∃ item ∈ its, ∃ nm ∈ item.filenames.getD [],
          fileStem nm ≠ "" ∧ extract_fingerprint (fileStem nm) = some p by
    simpa [liveSetOf] using h items []
  intro its
  induction its with
  | nil => simp
  | cons it rest ih =>
    intro acc
    rw [List.foldl_cons, ih, mem_liveFoldNames]
    simp only [List.exists_mem_cons_iff]
    exact or_assoc

/-- C6: the live set stores exactly the unnormalized pairs parsed from the
build-plan filenames, and deps-tree selection tests the unnormalized parsed
pair: an entry whose pair is absent from the live set is selected even when
the pair with `-` replaced by `_` in its name IS in the live set. -/
theorem spec_c6 :
    (∀ (items : List OutputItem) (p : String × String),
        p ∈ liveSetOf items ↔
          ∃ item ∈ items, ∃ nm ∈ item.filenames.getD [],
            fileStem nm ≠ "" ∧ extract_fingerprint (fileStem nm) = some p) ∧
    (∀ (live : List (String × String)) (entries : List DepsEntry)
        (e : DepsEntry), (entries.map DepsEntry.path).Nodup → e ∈ entries →
        e.isDir = false → e.ext ≠ "d" →
        ∀ n h, extract_fingerprint e.stem = some (n, h) →
          (n, h) ∉ live → (normalize_package_name n, h) ∈ live →
          e.path ∈ depsSelect live entries) := by
  refine ⟨mem_liveSetOf, ?_⟩
  intro live entries e _hnd he hdir hext n h hpar hnot _hnorm
  rw [depsSelect, mem_depsSelectGo]
  exact Or.inr ⟨e, he, hdir, ⟨(n, h), hpar, hnot, hext⟩, rfl⟩

/-- Witness for C6: live set `{(liba_b, h)}` in build-plan convention; the
deps entry `liba-b-h.rlib` parses to `(liba-b, h)`, whose normalized form is
in the live set, yet the entry is selected. -/
theorem spec_c6_witness :
    "/deps/liba-b-h.rlib" ∈ depsSelect [("liba_b", "h")]
      [⟨false, "liba-b-h", "rlib", "/deps/liba-b-h.rlib"⟩] :=
  spec_c6.2 [("liba_b", "h")]
    [⟨false, "liba-b-h", "rlib", "/deps/liba-b-h.rlib"⟩]
    ⟨false, "liba-b-h", "rlib", "/deps/liba-b-h.rlib"⟩
    (by decide) (by decide) rfl (by decide) "liba-b" "h" (by decide)
    (by decide) (by decide)

/-- C4: when no identifier can be extracted from any build-plan record, the
run fails with the empty-live-set error and removes nothing. -/
theorem spec_c4 (items : List OutputItem) (deps : List DepsEntry)
    (inc : List IncEntry) (incPath : String) (w : World) (dryRun : Bool)
    (hempty : ∀ item ∈ items, ∀ nm ∈ item.filenames.getD [],
      fileStem nm = "" ∨ extract_fingerprint (fileStem nm) = none) :
    gcRun items deps inc incPath w dryRun =
      .error "no valid file is found, you can just run `cargo clean`" ∧
    removedPaths (gcRun items deps inc incPath w dryRun) = [] := by
  have hnil : liveSetOf items = [] := by
    rw [List.eq_nil_iff_forall_not_mem]
    intro p hp
    rw [mem_liveSetOf] at hp
    obtain ⟨item, hitem, nm, hnm, hne, hext⟩ := hp
    rcases hempty item hitem nm hnm with h | h
    · exact hne h
    · rw [h] at hext
      exact Option.noConfusion hext
  have hfj : fromJson items =
      .error "no valid file is found, you can just run `cargo clean`" := by
    simp [fromJson, hnil]
  have hrun : gcRun items deps inc incPath w dryRun =
      .error "no valid file is found, you can just run `cargo clean`" := by
    simp only [gcRun, hfj]
    rfl
  exact ⟨hrun, by rw [hrun]; rfl⟩

/-- Witness for C4: one record whose only filename has no `-` in its stem. -/
theorem spec_c4_witness :
    gcRun [⟨some ["foo"]⟩] [] [] "inc" ⟨[], [], [], []⟩ false =
      .error "no valid file is found, you can just run `cargo clean`" ∧
    removedPaths (gcRun [⟨some ["foo"]⟩] [] [] "inc" ⟨[], [], [], []⟩ false) = [] :=
  spec_c4 [⟨some ["foo"]⟩] [] [] "inc" ⟨[], [], [], []⟩ false (by decide)

/-- C1 evaluation at the failing input: name `x` with sessions `x-h1`
(mtime 1) and `x-h2` (mtime 2).  Observed in ascending-timestamp order the
reducer marks the NEWER session `inc/x-h2` for removal (the source formats
`prev_hash` after overwriting it with the new hash, src/main.rs:138-141 and
src/beatrice.rs:224-227), retaining the older `x-h1` on disk; observed in
descending order it marks `inc/x-h1` as the claim expects.  The claim
(retain `t2`, remove exactly `t1`, in either observation order) therefore
fails on the first order. -/
theorem spec_c1_code_result :
    loadIncremental "inc"
        [⟨some true, "x-h1", 1⟩, ⟨some true, "x-h2", 2⟩] = ["inc/x-h2"] ∧
    loadIncremental "inc"
        [⟨some true, "x-h2", 2⟩, ⟨some true, "x-h1", 1⟩] = ["inc/x-h1"] := by
  exact ⟨rfl, rfl⟩

lemma loadIncrementalGo_origin (incPath : String) :
    ∀ (entries : List IncEntry) (latest : List (String × (String × Nat)))
      (toRemove : List String) (p : String),
      p ∈ loadIncrementalGo incPath entries latest toRemove →
      p ∈ toRemove ∨ ∃ e ∈ entries, e.isDir = some true ∧
        ∃ n h, extract_fingerprint e.name = some (n, h) ∧
          p = incPath ++ "/" ++ n ++ "-" ++ h := by
  intro entries
  induction entries with
  | nil =>
    intro latest toRemove p hp
    exact Or.inl hp
  | cons e rest ih =>
    intro latest toRemove p hp
    simp only [loadIncrementalGo] at hp
    have step :
        ∀ (l : List (String × (String × Nat))) (t : List String),
          p ∈ loadIncrementalGo incPath rest l t →
          (p ∈ t → p ∈ toRemove ∨ ∃ e' ∈ e :: rest, e'.isDir = some true ∧
            ∃ n h, extract_fingerprint e'.name = some (n, h) ∧
              p = incPath ++ "/" ++ n ++ "-" ++ h) →
          p ∈ toRemove ∨ ∃ e' ∈ e :: rest, e'.isDir = some true ∧
            ∃ n h, extract_fingerprint e'.name = some (n, h) ∧
              p = incPath ++ "/" ++ n ++ "-" ++ h := by
      intro l t hmem hbase
      rcases ih l t p hmem with ht | ⟨e', he', hd, n, h, hx, hpth⟩
      · exact hbase ht
      · exact Or.inr ⟨e', List.mem_cons_of_mem e he', hd, n, h, hx, hpth⟩
    split at hp
    · exact step _ _ hp (fun ht => Or.inl ht)
    · next hdir' =>
      have hdir : e.isDir = some true := by
        cases hde : e.isDir with
        | none => rw [hde] at hdir'; simp at hdir'
        | some b =>
          cases b with
          | false => rw [hde] at hdir'; simp at hdir'
          | true => rfl
      split at hp
      · exact step _ _ hp (fun ht => Or.inl ht)
      · next depName hash hx =>
        split at hp
        · split at hp
          · refine step _ _ hp (fun ht => ?_)
            rcases (mem_insertOnce p _ toRemove).mp ht with hpe | ht'
            · exact Or.inr ⟨e, List.mem_cons_self e rest, hdir,
                depName, hash, hx, hpe⟩
            · exact Or.inl ht'
          · refine step _ _ hp (fun ht => ?_)
            rcases (mem_insertOnce p _ toRemove).mp ht with hpe | ht'
            · exact Or.inr ⟨e, List.mem_cons_self e rest, hdir,
                depName, hash, hx, hpe⟩
            · exact Or.inl ht'
        · exact step _ _ hp (fun ht => Or.inl ht)

/-- C10: every path in the incremental removal set is built from a
first-level entry of the incremental tree that is a directory (file type
determined and `is_dir`) and whose name parses as `name-hash`; non-directory
entries and entries with undetermined file type are never selected. -/
theorem spec_c10 (incPath : String) (entries : List IncEntry) (p : String)
    (hp : p ∈ loadIncremental incPath entries) :
    ∃ e ∈ entries, e.isDir = some true ∧
      ∃ n h, extract_fingerprint e.name = some (n, h) ∧
        p = incPath ++ "/" ++ n ++ "-" ++ h := by
  rcases loadIncrementalGo_origin incPath entries [] [] p hp with hf | hr
  · exact absurd hf (List.not_mem_nil p)
  · exact hr

/-- Witness for C10: the removal path `inc/x-h2` produced by two sessions of
name `x` originates from a directory entry parsing as `(x, h2)`. -/
theorem spec_c10_witness :
    ∃ e ∈ [(⟨some true, "x-h1", 1⟩ : IncEntry), ⟨some true, "x-h2", 2⟩],
      e.isDir = some true ∧
        ∃ n h, extract_fingerprint e.name = some (n, h) ∧
          "inc/x-h2" = "inc" ++ "/" ++ n ++ "-" ++ h :=
  spec_c10 "inc" [⟨some true, "x-h1", 1⟩, ⟨some true, "x-h2", 2⟩]
    "inc/x-h2" (by decide)

lemma execFilesGo_all_ok (w : World) :
    ∀ (fs : List String) (failed size : Nat) (removed : List String),
      (∀ f ∈ fs, f ∉ w.fileRemoveFails) →
      execFilesGo w fs failed size removed =
        (failed, size + (fs.map (fun f => (alookup f w.fileSize).getD 0)).sum,
         removed ++ fs) := by
  intro fs
  induction fs with
  | nil => intro failed size removed _; simp [execFilesGo]
  | cons f rest ih =>
    intro failed size removed hok
    have hf : f ∉ w.fileRemoveFails := hok f (List.mem_cons_self f rest)
    simp only [execFilesGo, if_neg hf]
    rw [ih _ _ _ (fun g hg => hok g (List.mem_cons_of_mem f hg))]
    simp [Nat.add_assoc]

lemma execFilesGo_one_fail (w : World) :
    ∀ (fs : List String) (failed size : Nat) (removed : List String)
      (f0 : String), fs.Nodup → f0 ∈ fs → f0 ∈ w.fileRemoveFails →
      (∀ f ∈ fs, f ≠ f0 → f ∉ w.fileRemoveFails) →
      execFilesGo w fs failed size removed =
        (failed + 1,
         size + ((fs.filter (fun f => f ≠ f0)).map
           (fun f => (alookup f w.fileSize).getD 0)).sum,
         removed ++ fs.filter (fun f => f ≠ f0)) := by
  intro fs
  induction fs with
  | nil =>
    intro failed size removed f0 _ hmem
    exact absurd hmem (List.not_mem_nil f0)
  | cons f rest ih =>
    intro failed size removed f0 hnd hmem hfail hok
    by_cases hff0 : f = f0
    · subst hff0
      have hrest : f ∉ rest := (List.nodup_cons.mp hnd).1
      simp only [execFilesGo, if_pos hfail]
      rw [execFilesGo_all_ok w rest _ _ _
        (fun g hg => hok g (List.mem_cons_of_mem f hg)
          (fun hgf => hrest (hgf ▸ hg)))]
      have hfilter : rest.filter (fun g => g ≠ f) = rest :=
        List.filter_eq_self.mpr (fun g hg => by
          have hne : g ≠ f := fun hgf => hrest (hgf ▸ hg)
          simp [hne])
      rw [List.filter_cons_of_neg (by simp), hfilter, Nat.add_sub_cancel]
    · have hf : f ∉ w.fileRemoveFails := hok f (List.mem_cons_self f rest) hff0
      have hmem' : f0 ∈ rest := by
        rcases List.mem_cons.mp hmem with h | h
        · exact absurd h.symm hff0
        · exact h
      simp only [execFilesGo, if_neg hf]
      rw [ih _ _ _ f0 (List.nodup_cons.mp hnd).2 hmem' hfail
        (fun g hg => hok g (List.mem_cons_of_mem f hg))]
      rw [List.filter_cons_of_pos (by simp [hff0])]
      simp [Nat.add_assoc]

lemma execDirsGo_all_listed (w : World) :
    ∀ (dirs : List String) (failed size : Nat) (removed : List String),
      (∀ d ∈ dirs, (alookup d w.dirListing).isSome) →
      execDirsGo w dirs failed size removed =
        .ok (failed + (dirs.filter (fun d => d ∈ w.dirRemoveFails)).length,
             size + ((dirs.filter (fun d => d ∉ w.dirRemoveFails)).map
               (fun d => (((alookup d w.dirListing).getD []).map
                 (fun c => c.getD 0)).sum)).sum,
             removed ++ dirs.filter (fun d => d ∉ w.dirRemoveFails)) := by
  intro dirs
  induction dirs with
  | nil => intro failed size removed _; simp [execDirsGo]
  | cons d rest ih =>
    intro failed size removed hlist
    obtain ⟨children, hch⟩ := Option.isSome_iff_exists.mp
      (hlist d (List.mem_cons_self d rest))
    simp only [execDirsGo, hch]
    by_cases hfail : d ∈ w.dirRemoveFails
    · rw [if_pos hfail, ih _ _ _ (fun g hg => hlist g (List.mem_cons_of_mem d hg))]
      rw [List.filter_cons_of_pos (by simp [hfail]),
        List.filter_cons_of_neg (by simp [hfail]), Nat.add_sub_cancel]
      refine congrArg Except.ok ?_
      simp only [Prod.mk.injEq, List.length_cons, and_true, true_and]
      all_goals omega
    · rw [if_neg hfail, ih _ _ _ (fun g hg => hlist g (List.mem_cons_of_mem d hg))]
      rw [List.filter_cons_of_neg (by simp [hfail]),
        List.filter_cons_of_pos (by simp [hfail])]
      refine congrArg Except.ok ?_
      simp only [Prod.mk.injEq, List.map_cons, List.sum_cons, hch,
        Option.getD_some, List.append_assoc, List.singleton_append,
        List.length_cons, and_true, true_and]
      all_goals omega

/-- Counterexample to C3 as stated: measuring the first selected directory
fails (its listing cannot be read) and the run aborts with an error, so the
second selected directory is never deleted — a per-directory measurement
failure IS fatal. -/
theorem spec_c3_cex :
    execDirsGo ⟨[], [], [("d2", [some 5])], []⟩ ["d1", "d2"] 0 0 [] =
      .error "failed to read incremental directory: d1" := rfl

/-- C3 amended: when every selected incremental directory can be listed,
unreadable child entries contribute 0 to the measured size, and each failed
`remove_dir_all` is recovered locally — counted, its measured size rolled
back from the freed total, and the remaining directories still processed;
but a failure to list a selected directory itself is fatal
(see the counterexample). -/
theorem spec_c3_amended (w : World) (dirs : List String)
    (failed size : Nat) (removed : List String)
    (hlist : ∀ d ∈ dirs, (alookup d w.dirListing).isSome) :
    execDirsGo w dirs failed size removed =
      .ok (failed + (dirs.filter (fun d => d ∈ w.dirRemoveFails)).length,
           size + ((dirs.filter (fun d => d ∉ w.dirRemoveFails)).map
             (fun d => (((alookup d w.dirListing).getD []).map
               (fun c => c.getD 0)).sum)).sum,
           removed ++ dirs.filter (fun d => d ∉ w.dirRemoveFails)) :=
  execDirsGo_all_listed w dirs failed size removed hlist

/-- Witness for the amended C3: `d1` has an unreadable child (counted as 0)
and fails to be removed; `d2` is still processed and removed, the failure
is counted once, and `d1`'s measured size is excluded from the total. -/
theorem spec_c3_witness :
    execDirsGo ⟨[], [], [("d1", [none, some 5]), ("d2", [some 7])], ["d1"]⟩
        ["d1", "d2"] 0 0 [] = .ok (1, 7, ["d2"]) :=
  (spec_c3_amended ⟨[], [], [("d1", [none, some 5]), ("d2", [some 7])], ["d1"]⟩
    ["d1", "d2"] 0 0 [] (by decide)).trans rfl

lemma except_bind_ok {α β : Type} (a : α) (f : α → Except String β) :
    (Except.ok a >>= f) = f a := rfl

/-- C5: with an empty incremental selection, when exactly one of the
selected deps files fails to delete and every other one succeeds, the run
completes with failure count 1, the report counts `N - 1` removed files, and
the freed-bytes total is the sum of the measured sizes of the successfully
removed files (the failed file's size was added and rolled back). -/
theorem spec_c5 (items : List OutputItem) (deps : List DepsEntry)
    (inc : List IncEntry) (incPath : String) (w : World)
    (live : List (String × String)) (fs : List String) (f0 : String)
    (hfj : fromJson items = .ok live)
    (hsel : depsSelect live deps = fs)
    (hinc : loadIncremental incPath inc = [])
    (hnd : fs.Nodup) (hf0 : f0 ∈ fs)
    (hfail : f0 ∈ w.fileRemoveFails)
    (hok : ∀ f ∈ fs, f ≠ f0 → f ∉ w.fileRemoveFails) :
    gcRun items deps inc incPath w false = .ok
      ⟨fs, [], fs.filter (fun f => f ≠ f0), [], 1,
       ((fs.filter (fun f => f ≠ f0)).map
         (fun f => (alookup f w.fileSize).getD 0)).sum,
       fs.length - 1⟩ := by
  have hexec := execFilesGo_one_fail w fs 0 0 [] f0 hnd hf0 hfail hok
  simp only [gcRun, hfj, except_bind_ok, hsel, hinc, hexec, Nat.zero_add,
    List.nil_append]
  rfl

/-- Witness for C5: two stale deps files `p1`, `p2`; removing `p1` fails.
The report counts one removed file, one failure, and frees only `p2`'s 20
bytes. -/
theorem spec_c5_witness :
    gcRun [⟨some ["liba-h1.rlib"]⟩]
        [⟨false, "b-2", "rlib", "p1"⟩, ⟨false, "c-3", "rlib", "p2"⟩]
        [] "inc" ⟨[("p1", 10), ("p2", 20)], ["p1"], [], []⟩ false =
      .ok ⟨["p1", "p2"], [], ["p2"], [], 1, 20, 1⟩ :=
  (spec_c5 [⟨some ["liba-h1.rlib"]⟩]
    [⟨false, "b-2", "rlib", "p1"⟩, ⟨false, "c-3", "rlib", "p2"⟩]
    [] "inc" ⟨[("p1", 10), ("p2", 20)], ["p1"], [], []⟩
    [("liba", "h1")] ["p1", "p2"] "p1"
    rfl rfl rfl (by decide) (by decide) (by decide) (by decide)).trans rfl

/-- C8: a dry run deletes nothing, and whenever the dry run and the real run
both complete on the same inputs and filesystem state, they report the same
deps selection and the same incremental selection. -/
theorem spec_c8 (items : List OutputItem) (deps : List DepsEntry)
    (inc : List IncEntry) (incPath : String) (w : World) :
    (∀ o, gcRun items deps inc incPath w true = .ok o →
      o.removedFiles = [] ∧ o.removedDirs = []) ∧
    (∀ o o', gcRun items deps inc incPath w true = .ok o →
      gcRun items deps inc incPath w false = .ok o' →
      o.depsSelected = o'.depsSelected ∧ o.incSelected = o'.incSelected) := by
  cases hfj : fromJson items with
  | error e =>
    have h1 : gcRun items deps inc incPath w true = .error e := by
      simp only [gcRun, hfj]
      rfl
    constructor
    · intro o ho
      rw [h1] at ho
      exact Except.noConfusion ho
    · intro o o' ho _
      rw [h1] at ho
      exact Except.noConfusion ho
  | ok live =>
    have h1 : gcRun items deps inc incPath w true =
        .ok ⟨depsSelect live deps, loadIncremental incPath inc,
             [], [], 0, 0, 0⟩ := by
      simp only [gcRun, hfj, except_bind_ok]
      rfl
    constructor
    · intro o ho
      rw [h1] at ho
      injection ho with h2
      subst h2
      exact ⟨rfl, rfl⟩
    · intro o o' ho ho'
      rw [h1] at ho
      injection ho with h2
      subst h2
      cases hed : execDirsGo w (loadIncremental incPath inc)
          (execFilesGo w (depsSelect live deps) 0 0 []).1
          (execFilesGo w (depsSelect live deps) 0 0 []).2.1 [] with
      | error e =>
        have h3 : gcRun items deps inc incPath w false = .error e := by
          simp only [gcRun, hfj, except_bind_ok, hed]
          rfl
        rw [h3] at ho'
        exact Except.noConfusion ho'
      | ok trip =>
        have h3 : gcRun items deps inc incPath w false =
            .ok ⟨depsSelect live deps, loadIncremental incPath inc,
                 (execFilesGo w (depsSelect live deps) 0 0 []).2.2, trip.2.2,
                 trip.1, trip.2.1, (depsSelect live deps).length - trip.1⟩ := by
          simp only [gcRun, hfj, except_bind_ok, hed]
          rfl
        rw [h3] at ho'
        injection ho' with h4
        subst h4
        exact ⟨rfl, rfl⟩

/-- Witness for C8: a run whose dry and real variants both complete; the
dry outcome deletes nothing and both report the selection `[p]`. -/
theorem spec_c8_witness :
    ((⟨["p"], [], [], [], 0, 0, 0⟩ : RunOutcome).removedFiles = [] ∧
     (⟨["p"], [], [], [], 0, 0, 0⟩ : RunOutcome).removedDirs = []) ∧
    ((⟨["p"], [], [], [], 0, 0, 0⟩ : RunOutcome).depsSelected =
       (⟨["p"], [], ["p"], [], 0, 5, 1⟩ : RunOutcome).depsSelected ∧
     (⟨["p"], [], [], [], 0, 0, 0⟩ : RunOutcome).incSelected =
       (⟨["p"], [], ["p"], [], 0, 5, 1⟩ : RunOutcome).incSelected) :=
  ⟨(spec_c8 [⟨some ["a-1.rlib"]⟩] [⟨false, "b-2", "rlib", "p"⟩] [] "inc"
      ⟨[("p", 5)], [], [], []⟩).1 ⟨["p"], [], [], [], 0, 0, 0⟩ rfl,
   (spec_c8 [⟨some ["a-1.rlib"]⟩] [⟨false, "b-2", "rlib", "p"⟩] [] "inc"
      ⟨[("p", 5)], [], [], []⟩).2 ⟨["p"], [], [], [], 0, 0, 0⟩
      ⟨["p"], [], ["p"], [], 0, 5, 1⟩ rfl rfl⟩

/-- The cross-tabulation identity maintained by the fingerprint-analysis
loop of `Beatrice::report`: each with/without-deps split sums to its
category count. -/
def reportInvariant (c : ReportCounts) : Prop :=
  c.fresh_with_deps + c.fresh_without_deps = c.fresh_count ∧
  c.dirty_with_deps + c.dirty_without_deps = c.dirty_count ∧
  c.unknown_with_deps + c.unknown_without_deps = c.unknown_count

lemma foldl_preserves {α β : Type} (P : β → Prop) (f : β → α → β)
    (hf : ∀ b a, P b → P (f b a)) :
    ∀ (l : List α) (b : β), P b → P (l.foldl f b) := by
  intro l
  induction l with
  | nil => intro b hb; exact hb
  | cons a rest ih =>
    intro b hb
    exact ih _ (hf b a hb)

lemma reportBump_inv (deps : DepsLib) (name hash : String)
    (fi : FingerprintInfo) (c : ReportCounts) (h : reportInvariant c) :
    reportInvariant (reportBump deps name hash fi c) := by
  obtain ⟨h1, h2, h3⟩ := h
  unfold reportInvariant reportBump
  split <;> split <;> refine ⟨?_, ?_, ?_⟩ <;> simp <;> omega

lemma reportCounts_inv (fp : FingerprintLib) (deps : DepsLib) :
    reportInvariant (reportCounts fp deps) := by
  have h0 : reportInvariant ⟨0, 0, 0, 0, 0, 0, 0, 0, 0, 0, 0⟩ := ⟨rfl, rfl, rfl⟩
  have hmain := foldl_preserves reportInvariant
    (fun c pkg => pkg.2.foldl (fun c hf => reportBump deps pkg.1 hf.1 hf.2 c) c)
    (fun c pkg hc => foldl_preserves reportInvariant
      (fun c hf => reportBump deps pkg.1 hf.1 hf.2 c)
      (fun c q hq => reportBump_inv deps pkg.1 q.1 q.2 c hq) pkg.2 c hc)
    fp ⟨0, 0, 0, 0, 0, 0, 0, 0, 0, 0, 0⟩ h0
  unfold reportInvariant at hmain ⊢
  unfold reportCounts
  simpa using hmain

lemma dwfInnerLe (fp : FingerprintLib) (name : String) :
    ∀ (l : List (String × ItemInfo)) (n : Nat),
      l.foldl (fun n hi => if fingerprintHas fp name hi.1 then n else n + 1) n ≤
        n + l.length := by
  intro l
  induction l with
  | nil => intro n; simp
  | cons hi rest ih =>
    intro n
    simp only [List.foldl_cons, List.length_cons]
    split
    · exact le_trans (ih n) (by omega)
    · exact le_trans (ih (n + 1)) (by omega)

lemma dwfLeTotal (fp : FingerprintLib) :
    ∀ (deps : List (String × List (String × ItemInfo))) (n t : Nat), n ≤ t →
      deps.foldl (fun n pkg => pkg.2.foldl
        (fun n hi => if fingerprintHas fp pkg.1 hi.1 then n else n + 1) n) n ≤
      deps.foldl (fun t pkg => t + pkg.2.length) t := by
  intro deps
  induction deps with
  | nil => intro n t h; exact h
  | cons pkg rest ih =>
    intro n t h
    simp only [List.foldl_cons]
    exact ih _ _ (le_trans (dwfInnerLe fp pkg.1 pkg.2 n) (by omega))

/-- C9: in the counts of `Beatrice::report`, each with/without-deps split
sums to its category count, the printed total-fingerprints figure is the sum
of the three category counts, and the deps-without-fingerprints count never
exceeds the total deps-item count. -/
theorem spec_c9 (fp : FingerprintLib) (deps : DepsLib) :
    (reportCounts fp deps).fresh_with_deps +
        (reportCounts fp deps).fresh_without_deps =
      (reportCounts fp deps).fresh_count ∧
    (reportCounts fp deps).dirty_with_deps +
        (reportCounts fp deps).dirty_without_deps =
      (reportCounts fp deps).dirty_count ∧
    (reportCounts fp deps).unknown_with_deps +
        (reportCounts fp deps).unknown_without_deps =
      (reportCounts fp deps).unknown_count ∧
    totalFingerprintsPrinted fp deps =
      (reportCounts fp deps).fresh_count + (reportCounts fp deps).dirty_count +
        (reportCounts fp deps).unknown_count ∧
    (reportCounts fp deps).deps_without_fingerprints ≤
      (reportCounts fp deps).total_deps := by
  obtain ⟨h1, h2, h3⟩ := reportCounts_inv fp deps
  refine ⟨h1, h2, h3, rfl, ?_⟩
  have hle := dwfLeTotal fp deps 0 0 (le_refl 0)
  simpa [reportCounts] using hle
